import Mathlib

/-!
Shallow embedding of the DMA controller core of libvfio-user (dma.h):
region table, scatter-gather translation with a per-caller region hint,
map/unmap refcounting, and dirty-page marking.  Machine integers are
modelled as `Nat` with explicit reduction modulo `2 ^ 64` (`sub64`) where
the C code performs unsigned 64-bit arithmetic; the dirty bitmap is
modelled as the set of bit indices that are set.
-/

/-- Constant 2^64, the modulus of the C `uint64_t` / `size_t` arithmetic. -/
def U64 : Nat := 2 ^ 64

/-- Constant 2^32, the modulus of the C `uint32_t` arithmetic (sg lengths). -/
def U32 : Nat := 2 ^ 32

/-- The `PROT_WRITE` bit (Linux: 2). -/
def PROT_WRITE : Nat := 2

/-- errno `EACCES` (13). -/
def EACCES : Nat := 13

/-- errno `EFAULT` (14). -/
def EFAULT : Nat := 14

/-- errno `EINVAL` (22). -/
def EINVAL : Nat := 22

/-- Unsigned 64-bit subtraction: `(a - b) mod 2^64`. -/
def sub64 (a b : Nat) : Nat := (a % U64 + (U64 - b % U64)) % U64

/-- Unsigned 64-bit addition: `(a + b) mod 2^64`, the compiled behaviour
of the source's `void* + size_t` pointer arithmetic. -/
def add64 (a b : Nat) : Nat := (a + b) % U64

/-- The slice of `vfu_dma_info_t` the translation code reads: the iova
interval `[iovaBase, iovaBase + iovaLen)`, the host virtual address
(`none` models a NULL `vaddr`, i.e. an unmappable region), and the
declared protection bits. -/
structure VfuDmaInfo where
  iovaBase : Nat
  iovaLen : Nat
  vaddr : Option Nat
  prot : Nat
deriving DecidableEq

/-- Model of `dma_memory_region_t`: registration info, backing fd and file offset,
refcount, and the dirty bitmap (`none` models a NULL bitmap pointer; a
present bitmap is the set of bit indices that are set). -/
structure DmaMemoryRegion where
  info : VfuDmaInfo
  fd : Int
  offset : Nat
  refcnt : Int
  dirty_bitmap : Option (Finset Nat)
deriving DecidableEq

instance : Inhabited DmaMemoryRegion :=
  ⟨{ info := { iovaBase := 0, iovaLen := 0, vaddr := none, prot := 0 },
     fd := -1, offset := 0, refcnt := 0, dirty_bitmap := none }⟩

/-- Model of `dma_controller_t`: the first `nregions` entries of `regions` are the
registered regions; `regions.length` plays the role of the allocated
capacity `max_regions` (the C flexible array member). -/
structure DmaController where
  nregions : Nat
  dirty_pgsize : Nat
  regions : List DmaMemoryRegion
deriving DecidableEq

/-- Model of `dma_sg_t`: `dma_addr` holds the owning region's iova base at
translation time, `region` its index, `offset`/`length` the span within
the region. -/
structure DmaSg where
  dma_addr : Nat
  region : Nat
  length : Nat
  offset : Nat
  mappable : Bool
deriving DecidableEq

/-- Model of `struct iovec` as produced by `dma_map_sg`. -/
structure Iovec where
  iov_base : Nat
  iov_len : Nat
deriving DecidableEq

/-- Model of `_dma_should_mark_dirty`: write intent and dirty logging active. -/
def _dma_should_mark_dirty (dma : DmaController) (prot : Nat) : Bool :=
  (prot &&& PROT_WRITE == PROT_WRITE) && decide (0 < dma.dirty_pgsize)

/-- Model of `_get_pgstart`: `(offset - (uint64_t)base_addr) / pgsize` with the
subtraction performed modulo 2^64 as in C. -/
def _get_pgstart (pgsize base_addr offset : Nat) : Nat :=
  sub64 offset base_addr / pgsize

/-- Model of `_get_pgend`: `start + (len / pgsize) + (len % pgsize != 0) - 1` in
`size_t` arithmetic. -/
def _get_pgend (pgsize len start : Nat) : Nat :=
  sub64 (start + len / pgsize + (if len % pgsize ≠ 0 then 1 else 0)) 1

/-- Model of `_dma_bitmap_get_pgrange`: the (start, end) page indices the marking
loop will touch for `sg` within `region`. -/
def _dma_bitmap_get_pgrange (dma : DmaController) (region : DmaMemoryRegion)
    (sg : DmaSg) : Nat × Nat :=
  let start := _get_pgstart dma.dirty_pgsize region.info.iovaBase sg.offset
  (start, _get_pgend dma.dirty_pgsize sg.length start)

/-- Model of `_dma_mark_dirty`: sets bits `start..end` in the region's bitmap.
`none` models the failure of `assert(region->dirty_bitmap != NULL)`. -/
def _dma_mark_dirty (dma : DmaController) (region : DmaMemoryRegion)
    (sg : DmaSg) : Option (Finset Nat) :=
  match region.dirty_bitmap with
  | none => none
  | some bm =>
    let r := _dma_bitmap_get_pgrange dma region sg
    some (bm ∪ Finset.Icc r.1 r.2)

/-- Replace the dirty bitmap of the region at index `i`. -/
def setBitmapAt : List DmaMemoryRegion → Nat → Finset Nat → List DmaMemoryRegion
  | [], _, _ => []
  | r :: rs, 0, bm => { r with dirty_bitmap := some bm } :: rs
  | r :: rs, n + 1, bm => r :: setBitmapAt rs n bm

/-- The controller with the dirty bitmap of region `idx` replaced. -/
def markRegionAt (dma : DmaController) (idx : Nat) (bm : Finset Nat) : DmaController :=
  { dma with regions := setBitmapAt dma.regions idx bm }

/-- Apply `f` to the refcount of the region at index `i` (identity when
`i` is out of range of the list). -/
def modifyRefAt : List DmaMemoryRegion → Nat → (Int → Int) → List DmaMemoryRegion
  | [], _, _ => []
  | r :: rs, 0, f => { r with refcnt := f r.refcnt } :: rs
  | r :: rs, n + 1, f => r :: modifyRefAt rs n f

/-- The controller with region `i`'s refcount incremented (`refcnt++`). -/
def incRefCtl (dma : DmaController) (i : Nat) : DmaController :=
  { dma with regions := modifyRefAt dma.regions i (· + 1) }

/-- The controller with region `i`'s refcount decremented (`refcnt--`). -/
def decRefCtl (dma : DmaController) (i : Nat) : DmaController :=
  { dma with regions := modifyRefAt dma.regions i (· - 1) }

/-- The pure field assignments of `dma_init_sg` (everything except the
dirty marking side effect).  `len` is the already 32-bit value of the
`uint32_t` parameter. -/
def initSgFields (dma : DmaController) (dma_addr len region_index : Nat) : DmaSg :=
  let region := dma.regions.getD region_index default
  { dma_addr := region.info.iovaBase
    region := region_index
    offset := sub64 dma_addr region.info.iovaBase
    length := len
    mappable := region.info.vaddr.isSome }

/-- Outcome of `dma_init_sg`: `-1` with an errno, a failure of the
`assert(region->dirty_bitmap != NULL)` inside `_dma_mark_dirty`, or
success with the written sg and the (possibly bitmap-updated) controller. -/
inductive InitSgResult where
  | err (e : Nat)
  | assertFail
  | ok (sg : DmaSg) (dma : DmaController)
deriving DecidableEq

/-- Model of `dma_init_sg`: protection check, sg field assignment, and dirty
marking when write intent meets active logging. -/
def dma_init_sg (dma : DmaController) (dma_addr len prot region_index : Nat) :
    InitSgResult :=
  let region := dma.regions.getD region_index default
  if prot &&& PROT_WRITE ≠ 0 ∧ region.info.prot &&& PROT_WRITE = 0 then
    .err EACCES
  else
    let sg := initSgFields dma dma_addr len region_index
    if _dma_should_mark_dirty dma prot then
      match _dma_mark_dirty dma region sg with
      | none => .assertFail
      | some bm => .ok sg { dma with regions := setBitmapAt dma.regions region_index bm }
    else
      .ok sg dma

/-- Outcome of `_dma_addr_sg_split` (the slow path). -/
inductive SplitResult where
  | err (e : Nat)
  | overflow (needed : Nat)
  | assertFail
  | ok (sgs : List DmaSg) (dma : DmaController)
deriving DecidableEq

/-- Outcome of `dma_addr_to_sg`; `ok` additionally carries the new value
of the per-caller region hint. -/
inductive TransResult where
  | err (e : Nat)
  | overflow (needed : Nat)
  | assertFail
  | ok (sgs : List DmaSg) (dma : DmaController) (hint : Nat)
deriving DecidableEq

/-- Linear scan for the first registered region containing `addr`,
starting at index `i` with the given fuel.  Modelled from the spec:
step 1 of the slow path of `addr_to_sg` (the body of
`_dma_addr_sg_split` is declared in dma.h but not part of the sources
given). -/
def scanRegion (dma : DmaController) (addr : Nat) : Nat → Nat → Option Nat
  | _, 0 => none
  | i, fuel + 1 =>
    if i < dma.nregions then
      let r := dma.regions.getD i default
      if r.info.iovaBase ≤ addr ∧ addr < r.info.iovaBase + r.info.iovaLen then
        some i
      else
        scanRegion dma addr (i + 1) fuel
    else
      none

/-- Modelled from the spec: step 1 of the slow path — find the region
containing `addr`, or none (`BAD_ADDRESS`). -/
def findRegionIdx (dma : DmaController) (addr : Nat) : Option Nat :=
  scanRegion dma addr 0 dma.nregions

/-- Modelled from the spec: steps 2–3 of the slow path — split
`[addr, addr+len)` into per-region chunks `(index, address, length)`,
walking forward through regions adjacent both in the table and in DMA
address space; `none` when the walk cannot cover `len` (`BAD_ADDRESS`). -/
def splitChunks (dma : DmaController) : Nat → Nat → Nat → Nat →
    Option (List (Nat × Nat × Nat))
  | 0, _, _, _ => none
  | fuel + 1, idx, addr, len =>
    let r := dma.regions.getD idx default
    let regionEnd := r.info.iovaBase + r.info.iovaLen
    if len ≤ regionEnd - addr then
      some [(idx, addr, len)]
    else if idx + 1 < dma.nregions ∧
        (dma.regions.getD (idx + 1) default).info.iovaBase = regionEnd then
      (splitChunks dma fuel (idx + 1) regionEnd (len - (regionEnd - addr))).map
        (fun rest => (idx, addr, regionEnd - addr) :: rest)
    else
      none

/-- Modelled from the spec: step 5 of the slow path — emit one sg per
chunk through `dma_init_sg`, threading the controller (dirty-bitmap
updates) and propagating failures. -/
def emitChunks (prot : Nat) : DmaController → List (Nat × Nat × Nat) → SplitResult
  | dma, [] => .ok [] dma
  | dma, c :: rest =>
    match dma_init_sg dma c.2.1 c.2.2 prot c.1 with
    | .err e => .err e
    | .assertFail => .assertFail
    | .ok sg dma1 =>
      match emitChunks prot dma1 rest with
      | .err e => .err e
      | .overflow n => .overflow n
      | .assertFail => .assertFail
      | .ok sgs dma2 => .ok (sg :: sgs) dma2

/-- Modelled from the spec: `_dma_addr_sg_split`, the slow path of
`addr_to_sg` — locate the region containing `dma_addr`, walk adjacent
regions to cover `len`, fail with `-(needed+1)` when more than `max_sg`
entries are required, otherwise emit the entries.  `len` is the already
32-bit value of the `uint32_t` parameter. -/
def _dma_addr_sg_split (dma : DmaController) (dma_addr len : Nat)
    (max_sg : Int) (prot : Nat) : SplitResult :=
  match findRegionIdx dma dma_addr with
  | none => .err EINVAL
  | some idx =>
    match splitChunks dma dma.nregions idx dma_addr len with
    | none => .err EINVAL
    | some chunks =>
      if (chunks.length : Int) > max_sg then .overflow chunks.length
      else emitChunks prot dma chunks

/-- Model of `dma_addr_to_sg`: fast path through the per-caller region hint
(re-validated on every call), slow path through `_dma_addr_sg_split`;
on a successful slow path the hint is set to the first emitted sg's
region.  The `size_t len` is truncated to 32 bits at both inner calls
(their parameter is `uint32_t`), and both `iov_end` and the fast-path
bound `dma_addr + len` are pointer additions that wrap mod 2^64
(`add64`). -/
def dma_addr_to_sg (dma : DmaController) (hint : Nat) (dma_addr len : Nat)
    (max_sg : Int) (prot : Nat) : TransResult :=
  let region := dma.regions.getD hint default
  let region_end := add64 region.info.iovaBase region.info.iovaLen
  if 0 < max_sg ∧ 0 < len ∧ region.info.iovaBase ≤ dma_addr ∧
      add64 dma_addr len ≤ region_end ∧ hint < dma.nregions then
    match dma_init_sg dma dma_addr (len % U32) prot hint with
    | .err e => .err e
    | .assertFail => .assertFail
    | .ok sg dma1 => .ok [sg] dma1 hint
  else
    match _dma_addr_sg_split dma dma_addr (len % U32) max_sg prot with
    | .err e => .err e
    | .overflow n => .overflow n
    | .assertFail => .assertFail
    | .ok sgs dma1 =>
      .ok sgs dma1 (match sgs with | [] => hint | sg :: _ => sg.region)

/-- Model of `dma_map_sg`: validate each sg's region index and host mapping, write
the iovec, increment the refcount; stops at the first failure, leaving
earlier increments in place.  Returns the C return value, the resulting
controller, and the list of iovecs written. -/
def dma_map_sg : DmaController → List DmaSg → Int × DmaController × List Iovec
  | dma, [] => (0, dma, [])
  | dma, sg :: rest =>
    if dma.nregions ≤ sg.region then
      (-(EINVAL : Int), dma, [])
    else
      let region := dma.regions.getD sg.region default
      match region.info.vaddr with
      | none => (-(EFAULT : Int), dma, [])
      | some va =>
        let iov : Iovec := { iov_base := va + sg.offset, iov_len := sg.length }
        let r := dma_map_sg (incRefCtl dma sg.region) rest
        (r.1, r.2.1, iov :: r.2.2)

/-- The inner scan of `dma_unmap_sg`: starting at index `i`, advance
while `i < nregions` and the base does not match; the result is the
index where the C pointer `r` stops (first match, or `nregions`). -/
def unmapScan (dma : DmaController) (addr : Nat) : Nat → Nat → Nat
  | i, 0 => i
  | i, fuel + 1 =>
    if i < dma.nregions ∧ (dma.regions.getD i default).info.iovaBase ≠ addr then
      unmapScan dma addr (i + 1) fuel
    else
      i

/-- Index at which the `dma_unmap_sg` region scan stops for `addr`. -/
def unmapFindIdx (dma : DmaController) (addr : Nat) : Nat :=
  unmapScan dma addr 0 dma.nregions

/-- One iteration of the `dma_unmap_sg` loop: the guard
`r > dma->regions + dma->nregions` of the source is modelled as
`dma.nregions < idx`; when it does not fire, `r->refcnt--` decrements
the slot the scan stopped at. -/
def dma_unmap_one (dma : DmaController) (sg : DmaSg) : DmaController :=
  let idx := unmapFindIdx dma sg.dma_addr
  if dma.nregions < idx then dma
  else decRefCtl dma idx

/-- Model of `dma_unmap_sg` over an sg list. -/
def dma_unmap_sg (dma : DmaController) (sgs : List DmaSg) : DmaController :=
  sgs.foldl dma_unmap_one dma

/-- Data-model invariants of the controller: the registered prefix fits
in the allocated table, each registered iova interval lies strictly below
2^64 (the spec requires registered intervals not to wrap, and the code's
`iov_end` pointer must be representable for its comparisons to mean
anything), and the intervals are pairwise disjoint. -/
def wfController (dma : DmaController) : Prop :=
  dma.nregions ≤ dma.regions.length ∧
  (∀ i, i < dma.nregions →
    (dma.regions.getD i default).info.iovaBase +
      (dma.regions.getD i default).info.iovaLen < U64) ∧
  (∀ i, i < dma.nregions → ∀ j, j < dma.nregions → i ≠ j →
    (dma.regions.getD i default).info.iovaBase +
        (dma.regions.getD i default).info.iovaLen ≤
      (dma.regions.getD j default).info.iovaBase ∨
    (dma.regions.getD j default).info.iovaBase +
        (dma.regions.getD j default).info.iovaLen ≤
      (dma.regions.getD i default).info.iovaBase)

/-! ### Concrete fixtures used by counterexamples and witnesses -/

/-- A RW region at iova `[0x1000, 0x2000)` with an allocated (empty)
dirty bitmap. -/
def regC1 : DmaMemoryRegion :=
  { info := { iovaBase := 0x1000, iovaLen := 0x1000, vaddr := some 0x70000, prot := 3 },
    fd := 4, offset := 0, refcnt := 0, dirty_bitmap := some ∅ }

/-- Controller logging at page size 0x1000 with `regC1` registered. -/
def ctlC1 : DmaController :=
  { nregions := 1, dirty_pgsize := 0x1000, regions := [regC1] }

/-- Controller with one registered region at iova base 0x1000 (refcnt 5)
and one allocated-but-unregistered slot. -/
def ctlC2 : DmaController :=
  { nregions := 1, dirty_pgsize := 0,
    regions :=
      [{ info := { iovaBase := 0x1000, iovaLen := 0x1000, vaddr := some 0x70000, prot := 3 },
         fd := 4, offset := 0, refcnt := 5, dirty_bitmap := none },
       default] }

/-- An sg whose `dma_addr` matches no registered region of `ctlC2`. -/
def sgC2 : DmaSg :=
  { dma_addr := 0x9000, region := 0, length := 0x100, offset := 0, mappable := true }

/-- Controller with one registered region (refcnt 0) at iova base 0x1000. -/
def ctlC3 : DmaController :=
  { nregions := 1, dirty_pgsize := 0,
    regions :=
      [{ info := { iovaBase := 0x1000, iovaLen := 0x1000, vaddr := some 0x70000, prot := 3 },
         fd := 4, offset := 0, refcnt := 0, dirty_bitmap := none }] }

/-- An sg whose `dma_addr` matches the region of `ctlC3`. -/
def sgC3 : DmaSg :=
  { dma_addr := 0x1000, region := 0, length := 0x100, offset := 0, mappable := true }

/-- Controller with a single mappable region of 2^33 bytes at iova 0. -/
def ctlC4 : DmaController :=
  { nregions := 1, dirty_pgsize := 0,
    regions :=
      [{ info := { iovaBase := 0, iovaLen := 2 ^ 33, vaddr := some 0x70000, prot := 3 },
         fd := 4, offset := 0, refcnt := 0, dirty_bitmap := none }] }

/-- A well-formed two-region controller (adjacent RW regions), logging off. -/
def ctlW : DmaController :=
  { nregions := 2, dirty_pgsize := 0,
    regions :=
      [{ info := { iovaBase := 0, iovaLen := 0x1000, vaddr := some 0x50000, prot := 3 },
         fd := 4, offset := 0, refcnt := 0, dirty_bitmap := none },
       { info := { iovaBase := 0x1000, iovaLen := 0x1000, vaddr := some 0x60000, prot := 3 },
         fd := 5, offset := 0, refcnt := 0, dirty_bitmap := none }] }

/-- Controller with one read-only region at iova `[0, 0x1000)`. -/
def ctlRO : DmaController :=
  { nregions := 1, dirty_pgsize := 0,
    regions :=
      [{ info := { iovaBase := 0, iovaLen := 0x1000, vaddr := some 0x50000, prot := 1 },
         fd := 4, offset := 0, refcnt := 0, dirty_bitmap := none }] }

/-- Controller logging at page size 0x1000 whose only region (added after
logging started) has no dirty bitmap. -/
def ctlNB : DmaController :=
  { nregions := 1, dirty_pgsize := 0x1000,
    regions :=
      [{ info := { iovaBase := 0, iovaLen := 0x1000, vaddr := some 0x50000, prot := 3 },
         fd := 4, offset := 0, refcnt := 0, dirty_bitmap := none }] }

/-- Controller whose only region is registered but not host-mapped
(`vaddr = none`), logging off. -/
def ctlUM : DmaController :=
  { nregions := 1, dirty_pgsize := 0,
    regions :=
      [{ info := { iovaBase := 0, iovaLen := 0x1000, vaddr := none, prot := 3 },
         fd := 4, offset := 0, refcnt := 0, dirty_bitmap := none }] }

/-- An sg referencing the unmappable region of `ctlUM`. -/
def sgUM : DmaSg :=
  { dma_addr := 0, region := 0, length := 0x100, offset := 0x200, mappable := false }

/-- An sg list over both regions of `ctlW`, as produced by translating
`[0xF00, 0x1100)`. -/
def sgsW : List DmaSg :=
  [{ dma_addr := 0, region := 0, length := 0x100, offset := 0xF00, mappable := true },
   { dma_addr := 0x1000, region := 1, length := 0x100, offset := 0, mappable := true }]

/-- Controller with two mappable RW regions at iova `[0x10000, 0x11000)`
and `[0x20000, 0x21000)`, logging off. -/
def ctlC9 : DmaController :=
  { nregions := 2, dirty_pgsize := 0,
    regions :=
      [{ info := { iovaBase := 0x10000, iovaLen := 0x1000, vaddr := some 0x50000, prot := 3 },
         fd := 4, offset := 0, refcnt := 0, dirty_bitmap := none },
       { info := { iovaBase := 0x20000, iovaLen := 0x1000, vaddr := some 0x60000, prot := 3 },
         fd := 5, offset := 0, refcnt := 0, dirty_bitmap := none }] }

/-! ### Helper lemmas about the list surgery -/

theorem modifyRefAt_length (l : List DmaMemoryRegion) (i : Nat) (f : Int → Int) :
    (modifyRefAt l i f).length = l.length := by
  induction l generalizing i with
  | nil => simp [modifyRefAt]
  | cons r rs ih =>
    cases i with
    | zero => simp [modifyRefAt]
    | succ n => simp [modifyRefAt, ih]

theorem modifyRefAt_getD (l : List DmaMemoryRegion) (i k : Nat) (f : Int → Int) :
    (modifyRefAt l i f).getD k default =
      if i = k ∧ k < l.length then
        { l.getD k default with refcnt := f (l.getD k default).refcnt }
      else l.getD k default := by
  induction l generalizing i k with
  | nil => simp [modifyRefAt]
  | cons r rs ih =>
    cases i with
    | zero =>
      cases k with
      | zero => simp [modifyRefAt]
      | succ m => simp [modifyRefAt]
    | succ n =>
      cases k with
      | zero => simp [modifyRefAt]
      | succ m => simpa [modifyRefAt, Nat.succ_lt_succ_iff] using ih n m

theorem modifyRefAt_getD_info (l : List DmaMemoryRegion) (i k : Nat) (f : Int → Int) :
    ((modifyRefAt l i f).getD k default).info = (l.getD k default).info := by
  rw [modifyRefAt_getD]
  split <;> rfl

theorem modifyRefAt_getD_self (l : List DmaMemoryRegion) (i : Nat)
    (hi : i < l.length) (f : Int → Int) :
    ((modifyRefAt l i f).getD i default).refcnt = f ((l.getD i default).refcnt) := by
  rw [modifyRefAt_getD, if_pos ⟨rfl, hi⟩]

/-! ### C1 — dirty marking marks the wrong pages -/

/-- C1: counter-evidence at a concrete input.  For the write-intent
translation of `[0x1000, 0x2000)` (region-relative offset 0, length
0x1000, page size 0x1000) the claim says exactly bits
`offset / page_size .. (offset+length-1) / page_size = {0}` are set, but
the code subtracts the region's iova base from the already region-relative
offset modulo 2^64 and derives the end page from `ceil(len/pgsize)`, so it
sets bit `2^52 - 1` instead — an out-of-bounds bitmap write. -/
theorem C1_dirty_pages_wrong :
    dma_init_sg ctlC1 0x1000 0x1000 3 0 =
      .ok { dma_addr := 0x1000, region := 0, offset := 0, length := 0x1000,
            mappable := true }
        { ctlC1 with regions :=
            setBitmapAt ctlC1.regions 0 (∅ ∪ Finset.Icc (2 ^ 52 - 1) (2 ^ 52 - 1)) } ∧
    (∅ ∪ Finset.Icc (2 ^ 52 - 1) (2 ^ 52 - 1) : Finset Nat) ≠
      Finset.Icc (0 / 0x1000) ((0 + 0x1000 - 1) / 0x1000) := by
  constructor
  · decide
  · decide

/-! ### C2 — an unmatched sg is not skipped by dma_unmap_sg -/

/-- C2: counter-evidence at a concrete input.  `sgC2`'s `dma_addr`
(0x9000) matches no registered region of `ctlC2`, yet `dma_unmap_sg`
changes the controller: the scan stops at the one-past-last registered
slot (index `nregions = 1`), the guard `r > regions + nregions` cannot
fire (the scan never passes `regions + nregions`), and `r->refcnt--`
decrements that unregistered slot. -/
theorem C2_unmatched_sg_not_skipped :
    dma_unmap_sg ctlC2 [sgC2] ≠ ctlC2 ∧
    ((dma_unmap_sg ctlC2 [sgC2]).regions.getD 1 default).refcnt = -1 ∧
    ((ctlC2.regions.getD 1 default).refcnt = 0) := by
  refine ⟨?_, ?_, ?_⟩ <;> decide

/-! ### C3 — refcounts do go below zero -/

/-- C3: counterexample.  A single matched `unmap_sg` entry on a region whose refcount is 0 drives the refcount to `-1`:
`dma_unmap_sg` decrements without any lower bound. -/
theorem C3_refcount_below_zero :
    ((dma_unmap_sg ctlC3 [sgC3]).regions.getD 0 default).refcnt = -1 := by
  decide

/-- C3 (amended): `dma_unmap_sg` decrements the refcount of the region the
scan stops at by exactly one, unconditionally — there is no clamping at
zero, so unbalanced unmaps can make the refcount negative. -/
theorem C3_unmap_decrements_unconditionally (dma : DmaController) (sg : DmaSg)
    (hn : dma.nregions ≤ dma.regions.length)
    (hidx : unmapFindIdx dma sg.dma_addr < dma.nregions) :
    ((dma_unmap_one dma sg).regions.getD (unmapFindIdx dma sg.dma_addr)
        default).refcnt =
      (dma.regions.getD (unmapFindIdx dma sg.dma_addr) default).refcnt - 1 := by
  unfold dma_unmap_one
  rw [if_neg (by omega)]
  exact modifyRefAt_getD_self dma.regions _ (lt_of_lt_of_le hidx hn) _

/-- C3 witness: the amended statement applied at `ctlC3`/`sgC3`. -/
theorem C3_unmap_decrements_unconditionally_witness :
    ((dma_unmap_one ctlC3 sgC3).regions.getD (unmapFindIdx ctlC3 sgC3.dma_addr)
        default).refcnt =
      (ctlC3.regions.getD (unmapFindIdx ctlC3 sgC3.dma_addr) default).refcnt - 1 :=
  C3_unmap_decrements_unconditionally ctlC3 sgC3 (by decide) (by decide)

/-! ### C4 — counterexample: sg lengths are truncated to 32 bits -/

/-- C4: counterexample.  A translation of `len = 2^32` bytes lying
entirely within the single 2^33-byte region of `ctlC4` (with `max_sg = 4`,
read intent, everything the claim requires) returns 1, but the emitted
sg's `length` is `0`, not `len`: `dma_addr_to_sg` passes its `size_t len`
to the `uint32_t len` parameter of `dma_init_sg`, truncating it. -/
theorem C4_length_truncated :
    dma_addr_to_sg ctlC4 0 0 (2 ^ 32) 4 1 =
      .ok [{ dma_addr := 0, region := 0, offset := 0, length := 0,
             mappable := true }] ctlC4 0 ∧
    (0 : Nat) ≠ 2 ^ 32 := by
  constructor
  · decide
  · decide

/-! ### C10 — the dirty-marking guard and its bitmap precondition -/

/-- C10: when the protection check passes, `dma_init_sg` invokes dirty
marking exactly when `prot` contains `PROT_WRITE` and `dirty_pgsize > 0`;
when marking is invoked it requires the region's dirty bitmap to be
present — a missing bitmap fails the assertion (there is no all-dirty
fallback in the translation path), and a present bitmap receives exactly
the page range computed by `_dma_bitmap_get_pgrange`. -/
theorem C10_marking_guard (dma : DmaController) (dma_addr len prot idx : Nat)
    (hprot : ¬(prot &&& PROT_WRITE ≠ 0 ∧
      (dma.regions.getD idx default).info.prot &&& PROT_WRITE = 0)) :
    (_dma_should_mark_dirty dma prot = true ↔
      prot &&& PROT_WRITE = PROT_WRITE ∧ 0 < dma.dirty_pgsize) ∧
    (_dma_should_mark_dirty dma prot = false →
      dma_init_sg dma dma_addr len prot idx =
        .ok (initSgFields dma dma_addr len idx) dma) ∧
    (_dma_should_mark_dirty dma prot = true →
      (dma.regions.getD idx default).dirty_bitmap = none →
      dma_init_sg dma dma_addr len prot idx = .assertFail) ∧
    (∀ bm, _dma_should_mark_dirty dma prot = true →
      (dma.regions.getD idx default).dirty_bitmap = some bm →
      dma_init_sg dma dma_addr len prot idx =
        .ok (initSgFields dma dma_addr len idx)
          (markRegionAt dma idx
            (bm ∪ Finset.Icc
              (_dma_bitmap_get_pgrange dma (dma.regions.getD idx default)
                (initSgFields dma dma_addr len idx)).1
              (_dma_bitmap_get_pgrange dma (dma.regions.getD idx default)
                (initSgFields dma dma_addr len idx)).2))) := by
  refine ⟨?_, ?_, ?_, ?_⟩
  · simp [_dma_should_mark_dirty]
  · intro hm
    unfold dma_init_sg
    rw [if_neg hprot, hm]
    simp
  · intro hm hbm
    unfold dma_init_sg
    rw [if_neg hprot, hm]
    simp only [List.getD_eq_getElem?_getD] at hbm
    simp [_dma_mark_dirty, hbm]
  · intro bm hm hbm
    unfold dma_init_sg
    rw [if_neg hprot, hm]
    simp only [List.getD_eq_getElem?_getD] at hbm
    simp [_dma_mark_dirty, hbm, _dma_bitmap_get_pgrange, markRegionAt]

/-- C10 witness: on `ctlNB` (logging active, region registered without a
bitmap) a write-intent `dma_init_sg` hits the marking assertion. -/
theorem C10_marking_guard_witness :
    dma_init_sg ctlNB 0 0x100 3 0 = .assertFail :=
  (C10_marking_guard ctlNB 0 0x100 3 0 (by decide)).2.2.1 (by decide) (by decide)

/-! ### The single-region translation lemma -/

/-- Predicate: `addr` lies in the iova interval of the region at index `i`. -/
def containsAddr (dma : DmaController) (i addr : Nat) : Prop :=
  (dma.regions.getD i default).info.iovaBase ≤ addr ∧
  addr < (dma.regions.getD i default).info.iovaBase +
    (dma.regions.getD i default).info.iovaLen

theorem region_unique {dma : DmaController} {i j addr : Nat}
    (hwf : wfController dma) (hi : i < dma.nregions) (hj : j < dma.nregions)
    (ci : containsAddr dma i addr) (cj : containsAddr dma j addr) : i = j := by
  by_contra hne
  obtain ⟨ci1, ci2⟩ := ci
  obtain ⟨cj1, cj2⟩ := cj
  rcases hwf.2.2 i hi j hj hne with h | h <;> omega

theorem scanRegion_eq {dma : DmaController} {addr j : Nat}
    (hP : containsAddr dma j addr) (hj : j < dma.nregions)
    (hfirst : ∀ k, k < j → ¬ containsAddr dma k addr) :
    ∀ fuel i, i ≤ j → j < i + fuel → scanRegion dma addr i fuel = some j := by
  simp only [containsAddr] at hP hfirst
  intro fuel
  induction fuel with
  | zero => intro i h1 h2; omega
  | succ f ih =>
    intro i h1 h2
    simp only [scanRegion]
    rw [if_pos (show i < dma.nregions by omega)]
    by_cases hij : i = j
    · subst hij
      rw [if_pos hP]
    · have hlt : i < j := by omega
      rw [if_neg (hfirst i hlt)]
      exact ih (i + 1) (by omega) (by omega)

theorem findRegionIdx_eq {dma : DmaController} {addr j : Nat}
    (hwf : wfController dma) (hj : j < dma.nregions)
    (hP : containsAddr dma j addr) :
    findRegionIdx dma addr = some j := by
  have hfirst : ∀ k, k < j → ¬ containsAddr dma k addr := by
    intro k hk hc
    have := region_unique hwf (by omega : k < dma.nregions) hj hc hP
    omega
  exact scanRegion_eq hP hj hfirst dma.nregions 0 (by omega) (by omega)

theorem splitChunks_single {dma : DmaController} {idx addr len : Nat}
    (h : len ≤ (dma.regions.getD idx default).info.iovaBase +
      (dma.regions.getD idx default).info.iovaLen - addr) :
    ∀ fuel, 0 < fuel → splitChunks dma fuel idx addr len = some [(idx, addr, len)] := by
  intro fuel hf
  obtain ⟨f, rfl⟩ : ∃ f, fuel = f + 1 := ⟨fuel - 1, by omega⟩
  simp only [splitChunks]
  rw [if_pos h]

theorem emitChunks_single (prot : Nat) (dma : DmaController) (idx addr clen : Nat) :
    emitChunks prot dma [(idx, addr, clen)] =
      match dma_init_sg dma addr clen prot idx with
      | .err e => .err e
      | .assertFail => .assertFail
      | .ok sg d => .ok [sg] d := by
  simp only [emitChunks]

theorem dma_init_sg_ok_sg {dma d : DmaController} {a l p i : Nat} {sg : DmaSg}
    (h : dma_init_sg dma a l p i = .ok sg d) : sg = initSgFields dma a l i := by
  simp only [dma_init_sg] at h
  split at h
  · simp at h
  · split at h
    · split at h
      · simp at h
      · exact ((InitSgResult.ok.injEq _ _ _ _).mp h).1.symm
    · exact ((InitSgResult.ok.injEq _ _ _ _).mp h).1.symm

/-- For a span lying inside the single registered region `j`, the
translator returns exactly what `dma_init_sg` on `j` produces — whatever
the incoming hint was (the fast path is re-validated, the slow path finds
`j` by scanning). -/
theorem addr_to_sg_single (dma : DmaController) (hint j addr len : Nat)
    (max_sg : Int) (prot : Nat)
    (hwf : wfController dma) (hj : j < dma.nregions)
    (hlo : (dma.regions.getD j default).info.iovaBase ≤ addr)
    (hhi : addr + len ≤ (dma.regions.getD j default).info.iovaBase +
      (dma.regions.getD j default).info.iovaLen)
    (hlen : 0 < len) (hmax : 1 ≤ max_sg) :
    dma_addr_to_sg dma hint addr len max_sg prot =
      match dma_init_sg dma addr (len % U32) prot j with
      | .err e => .err e
      | .assertFail => .assertFail
      | .ok sg d => .ok [sg] d j := by
  have hcj : containsAddr dma j addr := ⟨hlo, by omega⟩
  have hwrapj : addr + len < U64 := by
    have := hwf.2.1 j hj
    omega
  have haddl : add64 addr len = addr + len := by
    unfold add64
    exact Nat.mod_eq_of_lt hwrapj
  unfold dma_addr_to_sg
  by_cases hfast : 0 < max_sg ∧ 0 < len ∧
      (dma.regions.getD hint default).info.iovaBase ≤ addr ∧
      add64 addr len ≤ add64 (dma.regions.getD hint default).info.iovaBase
        (dma.regions.getD hint default).info.iovaLen ∧
      hint < dma.nregions
  · obtain ⟨hm1, hl1, hlo1, hhi1, hn1⟩ := id hfast
    have hendh : add64 (dma.regions.getD hint default).info.iovaBase
        (dma.regions.getD hint default).info.iovaLen =
        (dma.regions.getD hint default).info.iovaBase +
          (dma.regions.getD hint default).info.iovaLen := by
      unfold add64
      exact Nat.mod_eq_of_lt (hwf.2.1 hint hn1)
    rw [haddl, hendh] at hhi1
    have hhj : hint = j :=
      region_unique hwf hn1 hj ⟨hlo1, by omega⟩ hcj
    rw [if_pos hfast, hhj]
  · rw [if_neg hfast]
    have hmod : len % U32 ≤ (dma.regions.getD j default).info.iovaBase +
        (dma.regions.getD j default).info.iovaLen - addr := by
      have := Nat.mod_le len U32
      omega
    have hsplit : _dma_addr_sg_split dma addr (len % U32) max_sg prot =
        match dma_init_sg dma addr (len % U32) prot j with
        | .err e => .err e
        | .assertFail => .assertFail
        | .ok sg d => .ok [sg] d := by
      have h1 : findRegionIdx dma addr = some j := findRegionIdx_eq hwf hj hcj
      have h2 : splitChunks dma dma.nregions j addr (len % U32) =
          some [(j, addr, len % U32)] :=
        splitChunks_single hmod dma.nregions (by omega)
      simp only [_dma_addr_sg_split, h1, h2]
      rw [if_neg (show ¬((([(j, addr, len % U32)] :
        List (Nat × Nat × Nat)).length : Int) > max_sg) by simp; omega)]
      exact emitChunks_single prot dma j addr (len % U32)
    rw [hsplit]
    cases hinit : dma_init_sg dma addr (len % U32) prot j with
    | err e => rfl
    | assertFail => rfl
    | ok sg d =>
      have : sg.region = j := by rw [dma_init_sg_ok_sg hinit]; rfl
      simp [this]

/-! ### Evaluation lemmas for dma_init_sg -/

theorem sub64_eq {a b : Nat} (hba : b ≤ a) (ha : a < U64) : sub64 a b = a - b := by
  have h64 : U64 = 18446744073709551616 := by norm_num [U64]
  simp only [sub64, h64] at *
  omega

theorem dma_init_sg_eacces {dma : DmaController} {a l p i : Nat}
    (hw : p &&& PROT_WRITE ≠ 0)
    (hro : (dma.regions.getD i default).info.prot &&& PROT_WRITE = 0) :
    dma_init_sg dma a l p i = .err EACCES := by
  unfold dma_init_sg
  rw [if_pos ⟨hw, hro⟩]

theorem dma_init_sg_no_mark {dma : DmaController} {a l p i : Nat}
    (hprot : ¬(p &&& PROT_WRITE ≠ 0 ∧
      (dma.regions.getD i default).info.prot &&& PROT_WRITE = 0))
    (hm : _dma_should_mark_dirty dma p = false) :
    dma_init_sg dma a l p i = .ok (initSgFields dma a l i) dma := by
  unfold dma_init_sg
  rw [if_neg hprot, hm]
  simp

theorem dma_init_sg_mark_none {dma : DmaController} {a l p i : Nat}
    (hprot : ¬(p &&& PROT_WRITE ≠ 0 ∧
      (dma.regions.getD i default).info.prot &&& PROT_WRITE = 0))
    (hm : _dma_should_mark_dirty dma p = true)
    (hbm : (dma.regions.getD i default).dirty_bitmap = none) :
    dma_init_sg dma a l p i = .assertFail := by
  unfold dma_init_sg
  rw [if_neg hprot, hm]
  simp only [List.getD_eq_getElem?_getD] at hbm
  simp [_dma_mark_dirty, hbm]

theorem dma_init_sg_mark_some {dma : DmaController} {a l p i : Nat} {bm : Finset Nat}
    (hprot : ¬(p &&& PROT_WRITE ≠ 0 ∧
      (dma.regions.getD i default).info.prot &&& PROT_WRITE = 0))
    (hm : _dma_should_mark_dirty dma p = true)
    (hbm : (dma.regions.getD i default).dirty_bitmap = some bm) :
    dma_init_sg dma a l p i =
      .ok (initSgFields dma a l i)
        (markRegionAt dma i
          (bm ∪ Finset.Icc
            (_dma_bitmap_get_pgrange dma (dma.regions.getD i default)
              (initSgFields dma a l i)).1
            (_dma_bitmap_get_pgrange dma (dma.regions.getD i default)
              (initSgFields dma a l i)).2)) := by
  unfold dma_init_sg
  rw [if_neg hprot, hm]
  simp only [List.getD_eq_getElem?_getD] at hbm
  simp [_dma_mark_dirty, hbm, _dma_bitmap_get_pgrange, markRegionAt]

/-! ### C4 — single-region translation (amended: len < 2^32, bitmap present
when marking fires) -/

/-- C4 (amended): for a span `[addr, addr+len)` inside registered region
`j`, with `max_sg ≥ 1`, `0 < len`, `len < 2^32` (sg lengths are 32-bit),
`prot` permitted by the region, and — when write-intent marking is active —
an allocated dirty bitmap, `dma_addr_to_sg` returns 1 with the single sg
carrying the region's iova base, `offset = addr - base`, `length = len`
and `mappable` iff the host mapping is present; this holds for every
incoming hint value. -/
theorem C4_single_region_translation (dma : DmaController) (hint j addr len : Nat)
    (max_sg : Int) (prot : Nat)
    (hwf : wfController dma) (hj : j < dma.nregions)
    (hlo : (dma.regions.getD j default).info.iovaBase ≤ addr)
    (hhi : addr + len ≤ (dma.regions.getD j default).info.iovaBase +
      (dma.regions.getD j default).info.iovaLen)
    (hlen : 0 < len) (hlen32 : len < U32) (hmax : 1 ≤ max_sg)
    (hprot : ¬(prot &&& PROT_WRITE ≠ 0 ∧
      (dma.regions.getD j default).info.prot &&& PROT_WRITE = 0))
    (hmark : _dma_should_mark_dirty dma prot = true →
      (dma.regions.getD j default).dirty_bitmap.isSome) :
    ∃ dma1, dma_addr_to_sg dma hint addr len max_sg prot =
      .ok [{ dma_addr := (dma.regions.getD j default).info.iovaBase,
             region := j,
             offset := addr - (dma.regions.getD j default).info.iovaBase,
             length := len,
             mappable := (dma.regions.getD j default).info.vaddr.isSome }] dma1 j := by
  have hmod : len % U32 = len := Nat.mod_eq_of_lt hlen32
  have haddr : addr < U64 := by
    have := hwf.2.1 j hj
    omega
  have hsg : initSgFields dma addr len j =
      { dma_addr := (dma.regions.getD j default).info.iovaBase,
        region := j,
        offset := addr - (dma.regions.getD j default).info.iovaBase,
        length := len,
        mappable := (dma.regions.getD j default).info.vaddr.isSome } := by
    simp only [initSgFields]
    rw [sub64_eq hlo haddr]
  by_cases hm : _dma_should_mark_dirty dma prot = true
  · obtain ⟨bm, hbm⟩ := Option.isSome_iff_exists.mp (hmark hm)
    refine ⟨markRegionAt dma j
      (bm ∪ Finset.Icc
        (_dma_bitmap_get_pgrange dma (dma.regions.getD j default)
          (initSgFields dma addr len j)).1
        (_dma_bitmap_get_pgrange dma (dma.regions.getD j default)
          (initSgFields dma addr len j)).2), ?_⟩
    rw [addr_to_sg_single dma hint j addr len max_sg prot hwf hj hlo hhi hlen hmax,
      hmod, dma_init_sg_mark_some hprot hm hbm, hsg]
  · refine ⟨dma, ?_⟩
    rw [addr_to_sg_single dma hint j addr len max_sg prot hwf hj hlo hhi hlen hmax,
      hmod, dma_init_sg_no_mark hprot (by simpa using hm), hsg]

/-- C4 witness: on the two-region controller `ctlW` with a stale hint (1),
translating `[0x200, 0x300)` of region 0 returns one exact sg. -/
theorem C4_single_region_translation_witness :
    ∃ dma1, dma_addr_to_sg ctlW 1 0x200 0x100 4 1 =
      .ok [{ dma_addr := (ctlW.regions.getD 0 default).info.iovaBase,
             region := 0,
             offset := 0x200 - (ctlW.regions.getD 0 default).info.iovaBase,
             length := 0x100,
             mappable := (ctlW.regions.getD 0 default).info.vaddr.isSome }] dma1 0 :=
  C4_single_region_translation ctlW 1 0 0x200 0x100 4 1
    (by unfold wfController; decide) (by decide) (by decide) (by decide)
    (by decide) (by decide) (by decide) (by decide) (by decide)

/-! ### C7 — write intent into a write-protected region -/

/-- C7: a translation request with write intent for a span inside a
registered region whose declared `prot` lacks `PROT_WRITE` fails with
`-1`/`EACCES` (for every incoming hint, i.e. on the fast and the slow
path alike), emitting no sg. -/
theorem C7_write_protection_violation (dma : DmaController) (hint j addr len : Nat)
    (max_sg : Int) (prot : Nat)
    (hwf : wfController dma) (hj : j < dma.nregions)
    (hlo : (dma.regions.getD j default).info.iovaBase ≤ addr)
    (hhi : addr + len ≤ (dma.regions.getD j default).info.iovaBase +
      (dma.regions.getD j default).info.iovaLen)
    (hlen : 0 < len) (hmax : 1 ≤ max_sg)
    (hw : prot &&& PROT_WRITE ≠ 0)
    (hro : (dma.regions.getD j default).info.prot &&& PROT_WRITE = 0) :
    dma_addr_to_sg dma hint addr len max_sg prot = .err EACCES := by
  rw [addr_to_sg_single dma hint j addr len max_sg prot hwf hj hlo hhi hlen hmax,
    dma_init_sg_eacces hw hro]

/-- C7 witness: a read-write request on the read-only region of `ctlRO`
returns `EACCES`. -/
theorem C7_write_protection_violation_witness :
    dma_addr_to_sg ctlRO 0 0 0x100 4 3 = .err EACCES :=
  C7_write_protection_violation ctlRO 0 0 0 0x100 4 3
    (by unfold wfController; decide) (by decide) (by decide) (by decide)
    (by decide) (by decide) (by decide) (by decide)

/-! ### C9 — hint independence -/

theorem splitChunks_ne_nil {dma : DmaController} :
    ∀ {fuel idx addr len : Nat} {chunks : List (Nat × Nat × Nat)},
    splitChunks dma fuel idx addr len = some chunks → chunks ≠ [] := by
  intro fuel
  induction fuel with
  | zero => intro idx addr len chunks h; simp [splitChunks] at h
  | succ f ih =>
    intro idx addr len chunks h
    simp only [splitChunks] at h
    split at h
    · cases h; simp
    · split at h
      · rw [Option.map_eq_some'] at h
        obtain ⟨rest, hrest, hchunks⟩ := h
        subst hchunks
        simp
      · simp at h

theorem emitChunks_ok_cons {prot : Nat} {dma : DmaController}
    {c : Nat × Nat × Nat} {rest : List (Nat × Nat × Nat)}
    {sgs : List DmaSg} {d : DmaController}
    (h : emitChunks prot dma (c :: rest) = .ok sgs d) : sgs ≠ [] := by
  simp only [emitChunks] at h
  split at h
  · exact absurd h (by simp)
  · exact absurd h (by simp)
  · split at h
    · exact absurd h (by simp)
    · exact absurd h (by simp)
    · exact absurd h (by simp)
    · obtain ⟨h1, h2⟩ := (SplitResult.ok.injEq _ _ _ _).mp h
      subst h1
      simp

theorem split_ok_ne_nil {dma : DmaController} {addr len : Nat} {max_sg : Int}
    {prot : Nat} {sgs : List DmaSg} {d : DmaController}
    (h : _dma_addr_sg_split dma addr len max_sg prot = .ok sgs d) : sgs ≠ [] := by
  unfold _dma_addr_sg_split at h
  split at h
  · exact absurd h (by simp)
  · split at h
    · exact absurd h (by simp)
    · rename_i chunks hchunks
      split at h
      · exact absurd h (by simp)
      · cases chunks with
        | nil => exact absurd hchunks (by intro hx; exact splitChunks_ne_nil hx rfl)
        | cons c rest => exact emitChunks_ok_cons h

/-- C9: counterexample.  For `ctlC9` (regions at `[0x10000, 0x11000)` and
`[0x20000, 0x21000)`) and the read request `dma_addr = 0xFFFFFFFFFFFFFF00`,
`len = 0x10300`, the fast-path bound `dma_addr + len <= region_end` wraps
mod 2^64 to `0x10200` and is satisfied at hint 0 and at hint 1 alike, so
the translator takes the fast path at either valid hint and emits a
different sg for each — the two runs disagree. -/
theorem C9_hint_dependent_on_wrapping_span :
    dma_addr_to_sg ctlC9 0 0xFFFFFFFFFFFFFF00 0x10300 4 1 =
      .ok [{ dma_addr := 0x10000, region := 0, offset := 0xFFFFFFFFFFFEFF00,
             length := 0x10300, mappable := true }] ctlC9 0 ∧
    dma_addr_to_sg ctlC9 1 0xFFFFFFFFFFFFFF00 0x10300 4 1 =
      .ok [{ dma_addr := 0x20000, region := 1, offset := 0xFFFFFFFFFFFDFF00,
             length := 0x10300, mappable := true }] ctlC9 1 ∧
    dma_addr_to_sg ctlC9 0 0xFFFFFFFFFFFFFF00 0x10300 4 1 ≠
      dma_addr_to_sg ctlC9 1 0xFFFFFFFFFFFFFF00 0x10300 4 1 := by
  refine ⟨?_, ?_, ?_⟩ <;> decide

/-- C9 (amended): for every request whose span does not wrap the 64-bit
address space (`dma_addr + len < 2^64`), the translator's result — return
value, emitted sgs, controller state, and even the updated hint — is the
same for any two initial values of the per-caller region hint; for
wrapping spans the fast-path bound itself wraps and different valid hints
can emit different sgs. -/
theorem C9_hint_independence (dma : DmaController) (h1 h2 addr len : Nat)
    (max_sg : Int) (prot : Nat) (hwf : wfController dma)
    (hnw : addr + len < U64) :
    dma_addr_to_sg dma h1 addr len max_sg prot =
      dma_addr_to_sg dma h2 addr len max_sg prot := by
  have haddl : add64 addr len = addr + len := by
    unfold add64
    exact Nat.mod_eq_of_lt hnw
  have key : ∀ h : Nat, (0 < max_sg ∧ 0 < len ∧
      (dma.regions.getD h default).info.iovaBase ≤ addr ∧
      add64 addr len ≤ add64 (dma.regions.getD h default).info.iovaBase
        (dma.regions.getD h default).info.iovaLen ∧ h < dma.nregions) →
      ∀ hx : Nat, dma_addr_to_sg dma hx addr len max_sg prot =
        match dma_init_sg dma addr (len % U32) prot h with
        | .err e => .err e
        | .assertFail => .assertFail
        | .ok sg d => .ok [sg] d h := by
    intro h hc hx
    obtain ⟨hmax, hlen, hlo, hhi, hn⟩ := hc
    have hend : add64 (dma.regions.getD h default).info.iovaBase
        (dma.regions.getD h default).info.iovaLen =
        (dma.regions.getD h default).info.iovaBase +
          (dma.regions.getD h default).info.iovaLen := by
      unfold add64
      exact Nat.mod_eq_of_lt (hwf.2.1 h hn)
    rw [haddl, hend] at hhi
    exact addr_to_sg_single dma hx h addr len max_sg prot hwf hn hlo hhi hlen
      (by omega)
  by_cases hc1 : 0 < max_sg ∧ 0 < len ∧
      (dma.regions.getD h1 default).info.iovaBase ≤ addr ∧
      add64 addr len ≤ add64 (dma.regions.getD h1 default).info.iovaBase
        (dma.regions.getD h1 default).info.iovaLen ∧ h1 < dma.nregions
  · rw [key h1 hc1 h1, key h1 hc1 h2]
  · by_cases hc2 : 0 < max_sg ∧ 0 < len ∧
        (dma.regions.getD h2 default).info.iovaBase ≤ addr ∧
        add64 addr len ≤ add64 (dma.regions.getD h2 default).info.iovaBase
          (dma.regions.getD h2 default).info.iovaLen ∧ h2 < dma.nregions
    · rw [key h2 hc2 h1, key h2 hc2 h2]
    · unfold dma_addr_to_sg
      rw [if_neg hc1, if_neg hc2]
      cases hs : _dma_addr_sg_split dma addr (len % U32) max_sg prot with
      | err e => rfl
      | overflow n => rfl
      | assertFail => rfl
      | ok sgs d =>
        cases sgs with
        | nil => exact absurd rfl (split_ok_ne_nil hs)
        | cons sg rest => rfl

/-- C9 witness: on `ctlW`, a valid hint (0) and a stale hint (1) give the
same translation of the non-wrapping span `[0x200, 0x300)`. -/
theorem C9_hint_independence_witness :
    dma_addr_to_sg ctlW 1 0x200 0x100 4 1 = dma_addr_to_sg ctlW 0 0x200 0x100 4 1 :=
  C9_hint_independence ctlW 1 0 0x200 0x100 4 1 (by unfold wfController; decide)
    (by decide)

/-! ### C5 — successful dma_map_sg -/

theorem incRefCtl_info (dma : DmaController) (i k : Nat) :
    ((incRefCtl dma i).regions.getD k default).info =
      (dma.regions.getD k default).info :=
  modifyRefAt_getD_info dma.regions i k _

theorem incRefCtl_refcnt (dma : DmaController) (i k : Nat)
    (hk : k < dma.regions.length) :
    ((incRefCtl dma i).regions.getD k default).refcnt =
      (dma.regions.getD k default).refcnt + (if i = k then 1 else 0) := by
  rw [show (incRefCtl dma i).regions = modifyRefAt dma.regions i (· + 1) from rfl,
    modifyRefAt_getD]
  by_cases hik : i = k
  · rw [if_pos ⟨hik, hk⟩]
    simp [hik]
  · rw [if_neg (by tauto)]
    simp [hik]

theorem dma_map_sg_cons_ok {dma : DmaController} {sg : DmaSg} {va : Nat}
    (rest : List DmaSg)
    (hr : sg.region < dma.nregions)
    (hva : (dma.regions.getD sg.region default).info.vaddr = some va) :
    dma_map_sg dma (sg :: rest) =
      ((dma_map_sg (incRefCtl dma sg.region) rest).1,
       (dma_map_sg (incRefCtl dma sg.region) rest).2.1,
       ({ iov_base := va + sg.offset, iov_len := sg.length } : Iovec) ::
         (dma_map_sg (incRefCtl dma sg.region) rest).2.2) := by
  simp only [dma_map_sg]
  rw [if_neg (by omega), hva]

/-- C5: a `dma_map_sg` call in which every sg has a valid region index and
refers to a host-mapped region returns 0, emits
`iov[i] = (vaddr + offset, length)` for every entry, and increments each
region's refcount by exactly the number of sg entries referencing it. -/
theorem C5_map_sg_success (dma : DmaController) (sgs : List DmaSg)
    (hn : dma.nregions ≤ dma.regions.length)
    (hvalid : ∀ sg ∈ sgs, sg.region < dma.nregions ∧
      ((dma.regions.getD sg.region default).info.vaddr).isSome) :
    (dma_map_sg dma sgs).1 = 0 ∧
    (dma_map_sg dma sgs).2.2 = sgs.map (fun sg =>
      { iov_base := ((dma.regions.getD sg.region default).info.vaddr).getD 0 + sg.offset,
        iov_len := sg.length }) ∧
    (∀ k, k < dma.regions.length →
      ((dma_map_sg dma sgs).2.1.regions.getD k default).refcnt =
        (dma.regions.getD k default).refcnt +
          (sgs.countP (fun sg => sg.region == k) : Int)) := by
  induction sgs generalizing dma with
  | nil => simp [dma_map_sg]
  | cons sg rest ih =>
    obtain ⟨hr, hv⟩ := hvalid sg (List.mem_cons_self sg rest)
    obtain ⟨va, hva⟩ := Option.isSome_iff_exists.mp hv
    have hstep := dma_map_sg_cons_ok rest hr hva
    have hn1 : (incRefCtl dma sg.region).nregions ≤
        (incRefCtl dma sg.region).regions.length := by
      rw [show (incRefCtl dma sg.region).nregions = dma.nregions from rfl,
        show (incRefCtl dma sg.region).regions = modifyRefAt dma.regions sg.region
          (· + 1) from rfl, modifyRefAt_length]
      exact hn
    have hvalid1 : ∀ s ∈ rest, s.region < (incRefCtl dma sg.region).nregions ∧
        (((incRefCtl dma sg.region).regions.getD s.region default).info.vaddr).isSome := by
      intro s hs
      obtain ⟨h1, h2⟩ := hvalid s (List.mem_cons_of_mem _ hs)
      exact ⟨h1, by rw [incRefCtl_info]; exact h2⟩
    obtain ⟨ih1, ih2, ih3⟩ := ih (incRefCtl dma sg.region) hn1 hvalid1
    refine ⟨?_, ?_, ?_⟩
    · rw [hstep]
      exact ih1
    · rw [hstep]
      show _ :: _ = _ :: _
      refine congrArg₂ _ ?_ ?_
      · simp only [hva]
        rfl
      · rw [ih2]
        refine List.map_congr_left ?_
        intro s hs
        rw [incRefCtl_info]
    · intro k hk
      have hk1 : k < (incRefCtl dma sg.region).regions.length := by
        rw [show (incRefCtl dma sg.region).regions = modifyRefAt dma.regions sg.region
          (· + 1) from rfl, modifyRefAt_length]
        exact hk
      rw [hstep]
      show ((dma_map_sg (incRefCtl dma sg.region) rest).2.1.regions.getD k
        default).refcnt = _
      rw [ih3 k hk1, incRefCtl_refcnt dma sg.region k hk, List.countP_cons]
      by_cases hik : sg.region = k
      · simp [hik]
        ring
      · simp [hik, show (sg.region == k) = false by simp [hik]]

/-- C5 witness: mapping `sgsW` on `ctlW` returns 0, emits the two exact
iovecs and leaves both refcounts at 1. -/
theorem C5_map_sg_success_witness :
    (dma_map_sg ctlW sgsW).1 = 0 ∧
    (dma_map_sg ctlW sgsW).2.2 = sgsW.map (fun sg =>
      { iov_base := ((ctlW.regions.getD sg.region default).info.vaddr).getD 0 + sg.offset,
        iov_len := sg.length }) ∧
    ((dma_map_sg ctlW sgsW).2.1.regions.getD 0 default).refcnt =
      (ctlW.regions.getD 0 default).refcnt +
        (sgsW.countP (fun sg => sg.region == 0) : Int) := by
  obtain ⟨h1, h2, h3⟩ := C5_map_sg_success ctlW sgsW (by decide) (by decide)
  exact ⟨h1, h2, h3 0 (by decide)⟩

/-! ### C6 — unmappable regions: translation succeeds, mapping fails -/

theorem map_sg_efault (dma : DmaController) (sgs : List DmaSg)
    (hall : ∀ sg ∈ sgs, sg.region < dma.nregions)
    (hmem : ∃ sg ∈ sgs, (dma.regions.getD sg.region default).info.vaddr = none) :
    (dma_map_sg dma sgs).1 = -(EFAULT : Int) := by
  induction sgs generalizing dma with
  | nil => simp at hmem
  | cons sg rest ih =>
    have hr := hall sg (List.mem_cons_self sg rest)
    simp only [dma_map_sg]
    rw [if_neg (by omega)]
    cases hva : (dma.regions.getD sg.region default).info.vaddr with
    | none => rfl
    | some va =>
      obtain ⟨s0, hs0mem, hs0⟩ := hmem
      have hs0r : s0 ∈ rest := by
        rcases List.mem_cons.mp hs0mem with h | h
        · subst h
          rw [hva] at hs0
          cases hs0
        · exact h
      show (dma_map_sg (incRefCtl dma sg.region) rest).1 = -(EFAULT : Int)
      apply ih (incRefCtl dma sg.region)
      · intro s hs
        exact hall s (List.mem_cons_of_mem _ hs)
      · refine ⟨s0, hs0r, ?_⟩
        rw [incRefCtl_info]
        exact hs0

/-- C6: a region registered without a host mapping still translates —
spans inside it produce a single sg with `mappable = false` (for every
incoming hint) — but any `dma_map_sg` whose (index-valid) sg list
contains an entry referencing that region fails with `-EFAULT`
(`NO_HOST_MAPPING`). -/
theorem C6_unmappable_region (dma : DmaController) (hint j addr len : Nat)
    (max_sg : Int) (prot : Nat) (sgs : List DmaSg)
    (hwf : wfController dma) (hj : j < dma.nregions)
    (hvaddr : (dma.regions.getD j default).info.vaddr = none)
    (hlo : (dma.regions.getD j default).info.iovaBase ≤ addr)
    (hhi : addr + len ≤ (dma.regions.getD j default).info.iovaBase +
      (dma.regions.getD j default).info.iovaLen)
    (hlen : 0 < len) (hlen32 : len < U32) (hmax : 1 ≤ max_sg)
    (hprot : ¬(prot &&& PROT_WRITE ≠ 0 ∧
      (dma.regions.getD j default).info.prot &&& PROT_WRITE = 0))
    (hmark : _dma_should_mark_dirty dma prot = true →
      (dma.regions.getD j default).dirty_bitmap.isSome)
    (hall : ∀ sg ∈ sgs, sg.region < dma.nregions)
    (hmem : ∃ sg ∈ sgs, sg.region = j) :
    (∃ dma1, dma_addr_to_sg dma hint addr len max_sg prot =
      .ok [{ dma_addr := (dma.regions.getD j default).info.iovaBase,
             region := j,
             offset := addr - (dma.regions.getD j default).info.iovaBase,
             length := len, mappable := false }] dma1 j) ∧
    (dma_map_sg dma sgs).1 = -(EFAULT : Int) := by
  constructor
  · have hmod : len % U32 = len := Nat.mod_eq_of_lt hlen32
    have haddr : addr < U64 := by
      have := hwf.2.1 j hj
      omega
    have hsg : initSgFields dma addr len j =
        { dma_addr := (dma.regions.getD j default).info.iovaBase,
          region := j,
          offset := addr - (dma.regions.getD j default).info.iovaBase,
          length := len, mappable := false } := by
      simp only [initSgFields]
      rw [sub64_eq hlo haddr, hvaddr]
      rfl
    by_cases hm : _dma_should_mark_dirty dma prot = true
    · obtain ⟨bm, hbm⟩ := Option.isSome_iff_exists.mp (hmark hm)
      refine ⟨markRegionAt dma j
        (bm ∪ Finset.Icc
          (_dma_bitmap_get_pgrange dma (dma.regions.getD j default)
            (initSgFields dma addr len j)).1
          (_dma_bitmap_get_pgrange dma (dma.regions.getD j default)
            (initSgFields dma addr len j)).2), ?_⟩
      rw [addr_to_sg_single dma hint j addr len max_sg prot hwf hj hlo hhi hlen hmax,
        hmod, dma_init_sg_mark_some hprot hm hbm, hsg]
    · refine ⟨dma, ?_⟩
      rw [addr_to_sg_single dma hint j addr len max_sg prot hwf hj hlo hhi hlen hmax,
        hmod, dma_init_sg_no_mark hprot (by simpa using hm), hsg]
  · apply map_sg_efault dma sgs hall
    obtain ⟨s0, hs0, hrj⟩ := hmem
    refine ⟨s0, hs0, ?_⟩
    rw [hrj]
    exact hvaddr

/-- C6 witness: on `ctlUM` the span `[0x200, 0x300)` translates to one
non-mappable sg and mapping `[sgUM]` returns `-EFAULT`. -/
theorem C6_unmappable_region_witness :
    (∃ dma1, dma_addr_to_sg ctlUM 0 0x200 0x100 4 1 =
      .ok [{ dma_addr := (ctlUM.regions.getD 0 default).info.iovaBase,
             region := 0,
             offset := 0x200 - (ctlUM.regions.getD 0 default).info.iovaBase,
             length := 0x100, mappable := false }] dma1 0) ∧
    (dma_map_sg ctlUM [sgUM]).1 = -(EFAULT : Int) :=
  C6_unmappable_region ctlUM 0 0 0x200 0x100 4 1 [sgUM]
    (by unfold wfController; decide) (by decide) (by decide) (by decide)
    (by decide) (by decide) (by decide) (by decide) (by decide) (by decide)
    (by decide) ⟨sgUM, by simp, by decide⟩

/-! ### C8 — map_sg / unmap_sg balance -/

theorem incRefCtl_length (dma : DmaController) (i : Nat) :
    (incRefCtl dma i).regions.length = dma.regions.length :=
  modifyRefAt_length dma.regions i _

theorem decRefCtl_length (dma : DmaController) (i : Nat) :
    (decRefCtl dma i).regions.length = dma.regions.length :=
  modifyRefAt_length dma.regions i _

theorem decRefCtl_info (dma : DmaController) (i k : Nat) :
    ((decRefCtl dma i).regions.getD k default).info =
      (dma.regions.getD k default).info :=
  modifyRefAt_getD_info dma.regions i k _

/-- Controller `x` agrees with `d` on everything the region scans read:
the number of registered regions, the table capacity, and every slot's
`info`. -/
def sameShape (d x : DmaController) : Prop :=
  x.nregions = d.nregions ∧ x.regions.length = d.regions.length ∧
  ∀ k, (x.regions.getD k default).info = (d.regions.getD k default).info

theorem sameShape_refl (d : DmaController) : sameShape d d :=
  ⟨rfl, rfl, fun _ => rfl⟩

theorem sameShape_incRefCtl {d x : DmaController} (hx : sameShape d x) (i : Nat) :
    sameShape d (incRefCtl x i) :=
  ⟨hx.1, by rw [incRefCtl_length]; exact hx.2.1,
   fun k => by rw [incRefCtl_info]; exact hx.2.2 k⟩

theorem sameShape_decRefCtl {d x : DmaController} (hx : sameShape d x) (i : Nat) :
    sameShape d (decRefCtl x i) :=
  ⟨hx.1, by rw [decRefCtl_length]; exact hx.2.1,
   fun k => by rw [decRefCtl_info]; exact hx.2.2 k⟩

theorem map_sg_zero_state (dma : DmaController) (sgs : List DmaSg)
    (h : (dma_map_sg dma sgs).1 = 0) :
    (dma_map_sg dma sgs).2.1 =
      sgs.foldl (fun d sg => incRefCtl d sg.region) dma := by
  induction sgs generalizing dma with
  | nil => rfl
  | cons sg rest ih =>
    by_cases hr : dma.nregions ≤ sg.region
    · exfalso
      simp only [dma_map_sg, if_pos hr] at h
      norm_num [EINVAL] at h
    · cases hva : (dma.regions.getD sg.region default).info.vaddr with
      | none =>
        exfalso
        simp only [dma_map_sg, if_neg hr, hva] at h
        norm_num [EFAULT] at h
      | some va =>
        have hstep := dma_map_sg_cons_ok rest (by omega) hva
        rw [hstep] at h ⊢
        rw [List.foldl_cons]
        exact ih (incRefCtl dma sg.region) h

theorem unmapScan_shape {d x : DmaController} (hx : sameShape d x) (addr : Nat) :
    ∀ fuel i, unmapScan x addr i fuel = unmapScan d addr i fuel := by
  intro fuel
  induction fuel with
  | zero => intro i; rfl
  | succ f ih =>
    intro i
    simp only [unmapScan]
    have hb : (x.regions.getD i default).info.iovaBase =
        (d.regions.getD i default).info.iovaBase := by rw [hx.2.2 i]
    rw [hx.1, hb, ih (i + 1)]

theorem unmapScan_finds {d : DmaController} {addr j : Nat}
    (hj : j < d.nregions) (hbase : (d.regions.getD j default).info.iovaBase = addr)
    (hfirst : ∀ k, k < j → (d.regions.getD k default).info.iovaBase ≠ addr) :
    ∀ fuel i, i ≤ j → j < i + fuel → unmapScan d addr i fuel = j := by
  intro fuel
  induction fuel with
  | zero => intro i h1 h2; omega
  | succ f ih =>
    intro i h1 h2
    simp only [unmapScan]
    by_cases hij : i = j
    · subst hij
      rw [if_neg (fun hc => hc.2 hbase)]
    · rw [if_pos ⟨by omega, hfirst i (by omega)⟩]
      exact ih (i + 1) (by omega) (by omega)

theorem unmap_eq_decFold (d : DmaController) (sgs : List DmaSg)
    (hd : ∀ sg ∈ sgs, sg.region < d.nregions ∧
      (d.regions.getD sg.region default).info.iovaBase = sg.dma_addr ∧
      ∀ k, k < sg.region → (d.regions.getD k default).info.iovaBase ≠ sg.dma_addr) :
    ∀ x, sameShape d x → dma_unmap_sg x sgs =
      sgs.foldl (fun y sg => decRefCtl y sg.region) x := by
  induction sgs with
  | nil => intro x hx; rfl
  | cons sg rest ih =>
    intro x hx
    obtain ⟨hr, hbase, hfirst⟩ := hd sg (List.mem_cons_self sg rest)
    have hfind : unmapFindIdx x sg.dma_addr = sg.region := by
      unfold unmapFindIdx
      rw [unmapScan_shape hx sg.dma_addr x.nregions 0, hx.1]
      exact unmapScan_finds hr hbase hfirst d.nregions 0 (by omega) (by omega)
    have hone : dma_unmap_one x sg = decRefCtl x sg.region := by
      unfold dma_unmap_one
      rw [hfind, if_neg (show ¬ x.nregions < sg.region by rw [hx.1]; omega)]
    show List.foldl dma_unmap_one x (sg :: rest) = _
    rw [List.foldl_cons, List.foldl_cons, hone]
    exact ih (fun s hs => hd s (List.mem_cons_of_mem _ hs))
      (decRefCtl x sg.region) (sameShape_decRefCtl hx _)

theorem modifyRefAt_comm_inc_dec (l : List DmaMemoryRegion) :
    ∀ i j, modifyRefAt (modifyRefAt l i (· + 1)) j (· - 1) =
      modifyRefAt (modifyRefAt l j (· - 1)) i (· + 1) := by
  induction l with
  | nil => intro i j; rfl
  | cons r rs ih =>
    intro i j
    cases i with
    | zero =>
      cases j with
      | zero =>
        cases r
        simp [modifyRefAt]
      | succ m => rfl
    | succ n =>
      cases j with
      | zero => rfl
      | succ m =>
        simp only [modifyRefAt]
        rw [ih n m]

theorem modifyRefAt_inc_dec_cancel (l : List DmaMemoryRegion) :
    ∀ i, modifyRefAt (modifyRefAt l i (· + 1)) i (· - 1) = l := by
  induction l with
  | nil => intro i; rfl
  | cons r rs ih =>
    intro i
    cases i with
    | zero =>
      cases r
      simp [modifyRefAt]
    | succ n =>
      simp only [modifyRefAt]
      rw [ih n]

theorem decRefCtl_incRefCtl_cancel (d : DmaController) (i : Nat) :
    decRefCtl (incRefCtl d i) i = d := by
  cases d
  simp [decRefCtl, incRefCtl, modifyRefAt_inc_dec_cancel]

theorem decRefCtl_incRefCtl_comm (d : DmaController) (i j : Nat) :
    decRefCtl (incRefCtl d i) j = incRefCtl (decRefCtl d j) i := by
  cases d
  simp [decRefCtl, incRefCtl, modifyRefAt_comm_inc_dec]

theorem sameShape_foldl_inc (d : DmaController) (sgs : List DmaSg) :
    ∀ x, sameShape d x →
      sameShape d (sgs.foldl (fun y sg => incRefCtl y sg.region) x) := by
  induction sgs with
  | nil => intro x hx; exact hx
  | cons s rest ih =>
    intro x hx
    simp only [List.foldl_cons]
    exact ih _ (sameShape_incRefCtl hx _)

theorem dec_foldl_inc_comm (l : List Nat) (a : Nat) :
    ∀ x : DmaController, decRefCtl (List.foldl incRefCtl x l) a =
      List.foldl incRefCtl (decRefCtl x a) l := by
  induction l with
  | nil => intro x; rfl
  | cons b m ih =>
    intro x
    simp only [List.foldl_cons]
    rw [ih (incRefCtl x b), decRefCtl_incRefCtl_comm]

theorem dec_foldl_inc_foldl (idxs : List Nat) :
    ∀ d : DmaController,
    List.foldl decRefCtl (List.foldl incRefCtl d idxs) idxs = d := by
  induction idxs with
  | nil => intro d; rfl
  | cons a l ih =>
    intro d
    simp only [List.foldl_cons]
    rw [dec_foldl_inc_comm l a (incRefCtl d a), decRefCtl_incRefCtl_cancel]
    exact ih d

/-- C8: a successful `dma_map_sg` followed by `dma_unmap_sg` over the
same sg list (sgs whose `dma_addr` is the iova base of their region, as
the translator emits them) restores the controller to exactly its
pre-map state — refcounts and all. -/
theorem C8_map_unmap_balanced (dma : DmaController) (sgs : List DmaSg)
    (hwf : wfController dma)
    (hpos : ∀ i, i < dma.nregions → 0 < (dma.regions.getD i default).info.iovaLen)
    (hsg : ∀ sg ∈ sgs, sg.region < dma.nregions ∧
      sg.dma_addr = (dma.regions.getD sg.region default).info.iovaBase)
    (hmap : (dma_map_sg dma sgs).1 = 0) :
    dma_unmap_sg (dma_map_sg dma sgs).2.1 sgs = dma := by
  have hdistinct : ∀ i, i < dma.nregions → ∀ j, j < dma.nregions → i ≠ j →
      (dma.regions.getD i default).info.iovaBase ≠
        (dma.regions.getD j default).info.iovaBase := by
    intro i hi j hj hne heq
    have h1 := hpos i hi
    have h2 := hpos j hj
    rcases hwf.2.2 i hi j hj hne with h | h <;> omega
  have hd : ∀ sg ∈ sgs, sg.region < dma.nregions ∧
      (dma.regions.getD sg.region default).info.iovaBase = sg.dma_addr ∧
      ∀ k, k < sg.region → (dma.regions.getD k default).info.iovaBase ≠ sg.dma_addr := by
    intro sg hs
    obtain ⟨h1, h2⟩ := hsg sg hs
    refine ⟨h1, h2.symm, ?_⟩
    intro k hk
    rw [h2]
    exact hdistinct k (by omega) sg.region h1 (by omega)
  have hstate := map_sg_zero_state dma sgs hmap
  have hshape : sameShape dma ((dma_map_sg dma sgs).2.1) := by
    rw [hstate]
    exact sameShape_foldl_inc dma sgs dma (sameShape_refl dma)
  rw [unmap_eq_decFold dma sgs hd _ hshape, hstate]
  have hinc : sgs.foldl (fun y sg => incRefCtl y sg.region) dma =
      List.foldl incRefCtl dma (sgs.map (fun sg => sg.region)) := by
    rw [List.foldl_map]
  have hdec : ∀ x, sgs.foldl (fun y sg => decRefCtl y sg.region) x =
      List.foldl decRefCtl x (sgs.map (fun sg => sg.region)) := by
    intro x
    rw [List.foldl_map]
  rw [hinc, hdec]
  exact dec_foldl_inc_foldl (sgs.map (fun sg => sg.region)) dma

/-- C8 witness: mapping then unmapping `sgsW` on `ctlW` restores the
controller exactly. -/
theorem C8_map_unmap_balanced_witness :
    dma_unmap_sg (dma_map_sg ctlW sgsW).2.1 sgsW = ctlW :=
  C8_map_unmap_balanced ctlW sgsW (by unfold wfController; decide) (by decide)
    (by decide) (by decide)
